import Mathlib

/-!
Verification of `vis_pae.py` (AlphaFold3 PAE visualizer).

A shallow embedding of the single script `vis_pae.py` of the repository
`Zuricho/AlphaFold3_Result_Visualize`, together with theorems settling the
behavioural claims about it.

The script has three parts, embedded here as executable Lean definitions:

* `process_token_chains` — the chain segmenter: given the per-token chain-label
  sequence it computes `chain_to_num` (label → 0-based index in sorted-unique
  order, mirroring `np.unique` + `enumerate`), `chain_to_start_index` /
  `chain_to_end_index` (label → first / last occurrence position, mirroring
  `np.where(...)[0][0]` and `[-1]`), and the `(1, N)` integer-coded array
  `token_chain_nums`.
* `render_model` — the figure composer for one model: heatmap of the `pae`
  matrix (`vmin=0`, `vmax=30`), top/left chain strips, colorbar label,
  dashed boundary lines at `start - 0.5` for every chain whose start index is
  not 0 (solid white in the strips), and a text label per chain at the midpoint
  `(start + end) / 2` in both strips.  `xticks_loc` / `xticks_present` are
  computed as in the source but never used by the figure.
* `main_model` / `script_main` — the driver: it first loads all five
  `*_full_data_i.json` files, then all five `*_summary_confidences_i.json`
  files (each load can fail: missing or malformed file), and only then renders
  and writes the figure for each model index 0..4 in order.  The `__main__`
  guard prints a usage message and exits with status 1 when no directory
  argument is given.

Python dictionaries are embedded as association lists in insertion order,
fallible operations (dict/file lookups, indexing into possibly-empty arrays)
return `Option`, and the numeric matrix entries are rationals.
-/

namespace VisPae

/-- Embeds `np.where(token_chain_ids == char)[0]` starting from offset `n`:
ascending positions (counted from `n`) of the elements equal to `c`. -/
def posFrom : List Char → Char → Nat → List Nat
  | [], _, _ => []
  | x :: xs, c, n =>
    if x = c then n :: posFrom xs c (n + 1) else posFrom xs c (n + 1)

/-- Embeds `np.where(token_chain_ids == char)[0]`: the ascending list of indices of
`token_chain_ids` holding `c`. -/
def positions (token_chain_ids : List Char) (c : Char) : List Nat :=
  posFrom token_chain_ids c 0

/-- Embeds `np.unique(token_chain_ids)`: the distinct labels in ascending order. -/
def np_unique (token_chain_ids : List Char) : List Char :=
  (token_chain_ids.dedup).insertionSort (· ≤ ·)

/-- Embeds the dict comprehension over `enumerate(unique_chains)` with `enumerate`
starting at `n`: the association list pairing each label with its index. -/
def chainToNum : List Char → Nat → List (Char × Nat)
  | [], _ => []
  | c :: cs, n => (c, n) :: chainToNum cs (n + 1)

/-- Embeds the comprehension looking up `chain_to_num` at each label: `none` models the
`KeyError` raised when a label is not a key of the dictionary. -/
def mapLookup (chain_to_num : List (Char × Nat)) : List Char → Option (List Nat)
  | [] => some []
  | c :: cs =>
    match chain_to_num.lookup c with
    | none => none
    | some n =>
      match mapLookup chain_to_num cs with
      | none => none
      | some ns => some (n :: ns)

/-- The loop `for char in unique_chains: indices = np.where(...)[0];
chain_to_start_index[char] = indices[0]; chain_to_end_index[char] = indices[-1]`.
`none` models the `IndexError` raised when `indices` is empty. -/
def computeStartEnd (token_chain_ids : List Char) :
    List Char → Option (List (Char × Nat) × List (Char × Nat))
  | [] => some ([], [])
  | c :: cs =>
    match (positions token_chain_ids c).head?, (positions token_chain_ids c).getLast? with
    | some s, some e =>
      match computeStartEnd token_chain_ids cs with
      | none => none
      | some (ss, es) => some ((c, s) :: ss, (c, e) :: es)
    | _, _ => none

/-- Embeds `process_token_chains(token_chain_ids)` from `vis_pae.py`: returns
`(chain_to_num, chain_to_start_index, chain_to_end_index, token_chain_nums)`,
the last reshaped to one row (`reshape(1, -1)`). -/
def process_token_chains (token_chain_ids : List Char) :
    Option (List (Char × Nat) × List (Char × Nat) × List (Char × Nat) × List (List Nat)) :=
  let unique_chains := np_unique token_chain_ids
  let chain_to_num := chainToNum unique_chains 0
  match mapLookup chain_to_num token_chain_ids with
  | none => none
  | some token_chain_nums =>
    match computeStartEnd token_chain_ids unique_chains with
    | none => none
    | some (chain_to_start_index, chain_to_end_index) =>
      some (chain_to_num, chain_to_start_index, chain_to_end_index, [token_chain_nums])

/-- First occurrence index of `c` (`indices[0]`), defaulting like `headD`. -/
def firstIdx (token_chain_ids : List Char) (c : Char) : Nat :=
  (positions token_chain_ids c).headD 0

/-- Last occurrence index of `c` (`indices[-1]`), defaulting like `getLastD`. -/
def lastIdx (token_chain_ids : List Char) (c : Char) : Nat :=
  (positions token_chain_ids c).getLastD 0

/-- Label `c` occurs at position `i` of `token_chain_ids`. -/
def occursAt (token_chain_ids : List Char) (c : Char) (i : Nat) : Prop :=
  token_chain_ids.get? i = some c

/-- Index `i` is the first occurrence position of `c`. -/
def IsFirstOcc (token_chain_ids : List Char) (c : Char) (i : Nat) : Prop :=
  occursAt token_chain_ids c i ∧ ∀ j, occursAt token_chain_ids c j → i ≤ j

/-- Index `i` is the last occurrence position of `c`. -/
def IsLastOcc (token_chain_ids : List Char) (c : Char) (i : Nat) : Prop :=
  occursAt token_chain_ids c i ∧ ∀ j, occursAt token_chain_ids c j → j ≤ i

/-! ## Figure composer (`main`, per-model body) -/

/-- One model's `*_full_data_i.json` file: the keys the script reads. -/
structure FullData where
  token_chain_ids : List Char
  token_res_ids : List Int
  pae : List (List Rat)
deriving DecidableEq, Repr

/-- One model's `*_summary_confidences_i.json` file: parsed scalar summaries
(ptm, iptm, ...); the script loads it but never reads any field. -/
structure ConfData where
  fields : List (String × Rat)
deriving DecidableEq, Repr

/-- Lines 94-99 of `vis_pae.py`: the `xticks_loc` / `xticks_present` loop.
`token_res_ids == 1` compares a Python list with an integer and is always
`False`, so only `token_res_ids[i] % 200 == 0` selects an index.  The result
is computed but never applied to the figure. -/
def compute_xticks (token_res_ids : List Int) : List Nat × List Int :=
  let xticks_loc := (List.range token_res_ids.length).filter
    (fun i => false || (token_res_ids.getD i 0) % 200 == 0)
  (xticks_loc, xticks_loc.map (fun i => token_res_ids.getD i 0))

/-- Lines 141-146: positions of the chain-boundary separator lines, one at
`start_index - 0.5` for every entry of `chain_to_start_index` whose start
index is not 0, in dictionary order. -/
def boundaryLines : List (Char × Nat) → List Rat
  | [] => []
  | (_, s) :: rest =>
    if s ≠ 0 then ((s : Rat) - 1 / 2) :: boundaryLines rest else boundaryLines rest

/-- Lines 149-156: the text annotations.  For each `char` of
`chain_to_start_index` (in order) look up `chain_to_end_index[char]`
(`none` models the `KeyError`), set `center_index = (start + end) / 2`, and
emit `(x, y, char)` entries for the top bar (`(center, 0)`) and the left bar
(`(0, center)`). -/
def computeTexts (chain_to_end_index : List (Char × Nat)) :
    List (Char × Nat) → Option (List (Rat × Rat × Char) × List (Rat × Rat × Char))
  | [] => some ([], [])
  | (c, s) :: rest =>
    match chain_to_end_index.lookup c with
    | none => none
    | some e =>
      let center_index : Rat := ((s : Rat) + (e : Rat)) / 2
      match computeTexts chain_to_end_index rest with
      | none => none
      | some (ts, ls) =>
        some ((center_index, 0, c) :: ts, ((0 : Rat), center_index, c) :: ls)

/-- The drawable content of one saved `figure_pae_<i>.png`. -/
structure Figure where
  /-- Data of `ax.imshow(pae_array, cmap="Greens_r", vmin=0, vmax=30)`. -/
  heatmap : List (List Rat)
  vmin : Rat
  vmax : Rat
  /-- Data of `ax_topbar.imshow(token_chain_nums, ...)`. -/
  top_strip : List (List Nat)
  /-- Data of `ax_leftbar.imshow(token_chain_nums.T, ...)`. -/
  left_strip : List (List Nat)
  colorbar_label : String
  /-- Positions of `ax.axhline(start_index - 0.5, ...)` (dashed, black). -/
  center_hlines : List Rat
  /-- Positions of `ax.axvline(start_index - 0.5, ...)` (dashed, black). -/
  center_vlines : List Rat
  /-- Positions of `ax_topbar.axvline(start_index - 0.5, ...)` (solid, white). -/
  top_vlines : List Rat
  /-- Positions of `ax_leftbar.axhline(start_index - 0.5, ...)` (solid, white). -/
  left_hlines : List Rat
  /-- Entries of `ax_topbar.text(center_index, 0, char, ...)`. -/
  top_texts : List (Rat × Rat × Char)
  /-- Entries of `ax_leftbar.text(0, center_index, char, ...)`. -/
  left_texts : List (Rat × Rat × Char)
deriving DecidableEq, Repr

/-- The loop body of `main` for one model index: compose the figure that
`plt.savefig` writes.  `none` models an uncaught exception. -/
def render_model (data : FullData) : Option Figure :=
  match process_token_chains data.token_chain_ids with
  | none => none
  | some (_chain_to_num, chain_to_start_index, chain_to_end_index, token_chain_nums) =>
    let _xticks := compute_xticks data.token_res_ids
    match computeTexts chain_to_end_index chain_to_start_index with
    | none => none
    | some (top_texts, left_texts) =>
      some
        { heatmap := data.pae
          vmin := 0
          vmax := 30
          top_strip := token_chain_nums
          left_strip := token_chain_nums.transpose
          colorbar_label := "PAE (Å)"
          center_hlines := boundaryLines chain_to_start_index
          center_vlines := boundaryLines chain_to_start_index
          top_vlines := boundaryLines chain_to_start_index
          left_hlines := boundaryLines chain_to_start_index
          top_texts := top_texts
          left_texts := left_texts }

/-! ## Driver (`main` and the `__main__` guard) -/

/-- The files of the prediction directory, by model index: `full i` is the
parsed content of `<dir>_full_data_<i>.json` (`none` when the file is missing
or malformed), `conf i` likewise for `<dir>_summary_confidences_<i>.json`. -/
structure FileSystem where
  full : Fin 5 → Option FullData
  conf : Fin 5 → Option ConfData

/-- Embeds the load comprehension `json.load(open(i))` over file names: load in order, aborting on the
first missing or malformed file. -/
def loadSeq {α : Type} (get : Fin 5 → Option α) : List (Fin 5) → Option (List α)
  | [] => some []
  | i :: is =>
    match get i with
    | none => none
    | some x =>
      match loadSeq get is with
      | none => none
      | some xs => some (x :: xs)

/-- How a run ends: `success` when all five figures were written, `failure`
when an uncaught exception aborted the process (non-zero exit status).  Either
way `written` lists the `(model_num, figure)` pairs saved to
`figure_pae_<model_num>.png`, in writing order. -/
inductive RunOutcome where
  | success (written : List (Nat × Figure))
  | failure (written : List (Nat × Figure))
deriving DecidableEq, Repr

/-- The `for model_num in range(5)` loop starting at model index `n`:
render each loaded full-data bundle and write its figure, aborting on the
first exception. -/
def renderLoop : List FullData → Nat → RunOutcome
  | [], _ => .success []
  | data :: rest, n =>
    match render_model data with
    | none => .failure []
    | some fig =>
      match renderLoop rest (n + 1) with
      | .success w => .success ((n, fig) :: w)
      | .failure w => .failure ((n, fig) :: w)

/-- Embeds `main(alphafold_prediction_name)`: first load the five full-data files,
then the five summary-confidences files (lines 75-76, before any figure is
composed), then run the model loop. -/
def main_model (fs : FileSystem) : RunOutcome :=
  match loadSeq fs.full (List.finRange 5) with
  | none => .failure []
  | some json_data_full =>
    match loadSeq fs.conf (List.finRange 5) with
    | none => .failure []
    | some _json_data_confidence => renderLoop json_data_full 0

/-- Outcome of running the script: either the usage message with its exit
status (main never entered, no file touched), or the outcome of `main`. -/
inductive CliOutcome where
  | usage (msg : String) (exit_status : Nat)
  | ran (result : RunOutcome)
deriving DecidableEq, Repr

/-- The `__main__` guard (lines 165-170): with fewer than two entries in
`sys.argv` print the usage message and exit with status 1; otherwise run
`main` on the directory named by `sys.argv[1]`.  `dirs` maps a directory name
to its files. -/
def script_main (argv : List String) (dirs : String → FileSystem) : CliOutcome :=
  if argv.length < 2 then
    .usage "Usage: python vis_pae.py <alphafold_prediction_directory>" 1
  else
    .ran (main_model (dirs ((argv.drop 1).headD "")))

/-! ## Lemmas about the chain segmenter -/

theorem np_unique_sorted (ids : List Char) : (np_unique ids).Sorted (· ≤ ·) :=
  List.sorted_insertionSort _ _

theorem np_unique_perm (ids : List Char) : List.Perm (np_unique ids) ids.dedup :=
  List.perm_insertionSort _ _

theorem np_unique_nodup (ids : List Char) : (np_unique ids).Nodup :=
  ((np_unique_perm ids).nodup_iff).mpr ids.nodup_dedup

theorem mem_np_unique {ids : List Char} {c : Char} : c ∈ np_unique ids ↔ c ∈ ids := by
  rw [(np_unique_perm ids).mem_iff, List.mem_dedup]

theorem np_unique_length (ids : List Char) : (np_unique ids).length = ids.dedup.length :=
  (np_unique_perm ids).length_eq

theorem mem_posFrom {xs : List Char} {c : Char} {n m : Nat} :
    m ∈ posFrom xs c n ↔ ∃ k, xs.get? k = some c ∧ m = n + k := by
  induction xs generalizing n m with
  | nil => simp [posFrom]
  | cons x xs ih =>
    constructor
    · intro hm
      by_cases hx : x = c
      · rw [posFrom, if_pos hx] at hm
        rcases List.mem_cons.mp hm with rfl | hm'
        · exact ⟨0, by simp [hx], by omega⟩
        · obtain ⟨k, hk, rfl⟩ := ih.mp hm'
          exact ⟨k + 1, by simpa using hk, by omega⟩
      · rw [posFrom, if_neg hx] at hm
        obtain ⟨k, hk, rfl⟩ := ih.mp hm
        exact ⟨k + 1, by simpa using hk, by omega⟩
    · rintro ⟨k, hk, rfl⟩
      cases k with
      | zero =>
        have hx : x = c := by simpa using hk
        rw [posFrom, if_pos hx]
        exact List.mem_cons_self _ _
      | succ k =>
        have hk' : xs.get? k = some c := by simpa using hk
        by_cases hx : x = c
        · rw [posFrom, if_pos hx]
          exact List.mem_cons_of_mem _ (ih.mpr ⟨k, hk', by omega⟩)
        · rw [posFrom, if_neg hx]
          exact ih.mpr ⟨k, hk', by omega⟩

theorem posFrom_ge {xs : List Char} {c : Char} {n m : Nat} (h : m ∈ posFrom xs c n) :
    n ≤ m := by
  obtain ⟨k, -, rfl⟩ := mem_posFrom.mp h
  omega

theorem posFrom_head?_min {xs : List Char} {c : Char} {n a : Nat}
    (h : (posFrom xs c n).head? = some a) : ∀ m ∈ posFrom xs c n, a ≤ m := by
  induction xs generalizing n with
  | nil => simp [posFrom] at h
  | cons x xs ih =>
    intro m hm
    by_cases hx : x = c
    · rw [posFrom, if_pos hx] at h hm
      rw [List.head?_cons, Option.some.injEq] at h
      subst h
      rcases List.mem_cons.mp hm with rfl | hm'
      · exact Nat.le_refl _
      · exact Nat.le_of_succ_le (posFrom_ge hm')
    · rw [posFrom, if_neg hx] at h hm
      exact ih h m hm

theorem posFrom_getLast?_max {xs : List Char} {c : Char} :
    ∀ {n a : Nat}, (posFrom xs c n).getLast? = some a → ∀ m ∈ posFrom xs c n, m ≤ a := by
  induction xs with
  | nil => intro n a h; simp [posFrom] at h
  | cons x xs ih =>
    intro n a h m hm
    by_cases hx : x = c
    · rw [posFrom, if_pos hx] at h hm
      cases hrest : posFrom xs c (n + 1) with
      | nil =>
        rw [hrest] at h hm
        simp only [List.getLast?_singleton, Option.some.injEq] at h
        have hmn : m = n := by simpa using hm
        omega
      | cons b bs =>
        rw [hrest] at h hm
        rw [List.getLast?_cons_cons] at h
        have hmax : ∀ m' ∈ posFrom xs c (n + 1), m' ≤ a :=
          ih (by rw [hrest]; exact h)
        rcases List.mem_cons.mp hm with hmn | hm'
        · have hb : b ∈ posFrom xs c (n + 1) := by
            rw [hrest]; exact List.mem_cons_self b bs
          have h1 : n + 1 ≤ b := posFrom_ge hb
          have h2 : b ≤ a := hmax b hb
          omega
        · exact hmax m (by rw [hrest]; exact hm')
    · rw [posFrom, if_neg hx] at h hm
      exact ih h m hm

theorem posFrom_ne_nil {xs : List Char} {c : Char} (h : c ∈ xs) (n : Nat) :
    posFrom xs c n ≠ [] := by
  induction xs generalizing n with
  | nil => cases h
  | cons x xs ih =>
    by_cases hx : x = c
    · simp [posFrom, if_pos hx]
    · simp only [posFrom, if_neg hx]
      rcases List.mem_cons.mp h with rfl | h'
      · exact absurd rfl hx
      · exact ih h' (n + 1)

theorem posFrom_length (xs : List Char) (c : Char) (n : Nat) :
    (posFrom xs c n).length = xs.count c := by
  induction xs generalizing n with
  | nil => simp [posFrom]
  | cons x xs ih =>
    by_cases hx : x = c
    · simp [posFrom, if_pos hx, List.count_cons, hx, ih]
    · simp [posFrom, if_neg hx, List.count_cons, hx, ih]

theorem positions_ne_nil {ids : List Char} {c : Char} (h : c ∈ ids) :
    positions ids c ≠ [] :=
  posFrom_ne_nil h 0

theorem head?_eq_headD {l : List Nat} (h : l ≠ []) : l.head? = some (l.headD 0) := by
  cases l with
  | nil => exact absurd rfl h
  | cons a l => rfl

theorem getLast?_eq_getLastD {l : List Nat} (h : l ≠ []) :
    l.getLast? = some (l.getLastD 0) := by
  obtain ⟨b, hb⟩ := Option.isSome_iff_exists.mp (List.getLast?_isSome.mpr h)
  rw [List.getLastD_eq_getLast?, hb]
  rfl

theorem positions_head? {ids : List Char} {c : Char} (h : c ∈ ids) :
    (positions ids c).head? = some (firstIdx ids c) :=
  head?_eq_headD (positions_ne_nil h)

theorem positions_getLast? {ids : List Char} {c : Char} (h : c ∈ ids) :
    (positions ids c).getLast? = some (lastIdx ids c) :=
  getLast?_eq_getLastD (positions_ne_nil h)

theorem mem_positions {ids : List Char} {c : Char} {m : Nat} :
    m ∈ positions ids c ↔ occursAt ids c m := by
  unfold positions occursAt
  rw [mem_posFrom]
  constructor
  · rintro ⟨k, hk, rfl⟩
    simpa using hk
  · intro h
    exact ⟨m, h, by omega⟩

theorem isFirstOcc_firstIdx {ids : List Char} {c : Char} (h : c ∈ ids) :
    IsFirstOcc ids c (firstIdx ids c) := by
  constructor
  · exact mem_positions.mp (List.mem_of_mem_head? (by rw [positions_head? h]; exact rfl))
  · intro j hj
    exact posFrom_head?_min (positions_head? h) j (mem_positions.mpr hj)

theorem isLastOcc_lastIdx {ids : List Char} {c : Char} (h : c ∈ ids) :
    IsLastOcc ids c (lastIdx ids c) := by
  constructor
  · exact mem_positions.mp (List.mem_of_getLast?_eq_some (positions_getLast? h))
  · intro j hj
    exact posFrom_getLast?_max (positions_getLast? h) j (mem_positions.mpr hj)

theorem occursAt_mem {ids : List Char} {c : Char} {i : Nat} (h : occursAt ids c i) :
    c ∈ ids :=
  List.get?_mem h

theorem isFirstOcc_iff {ids : List Char} {c : Char} {i : Nat} :
    IsFirstOcc ids c i ↔ c ∈ ids ∧ i = firstIdx ids c := by
  constructor
  · intro h
    have hc : c ∈ ids := occursAt_mem h.1
    have h' := isFirstOcc_firstIdx hc
    exact ⟨hc, Nat.le_antisymm (h.2 _ h'.1) (h'.2 _ h.1)⟩
  · rintro ⟨hc, rfl⟩
    exact isFirstOcc_firstIdx hc

theorem isLastOcc_iff {ids : List Char} {c : Char} {i : Nat} :
    IsLastOcc ids c i ↔ c ∈ ids ∧ i = lastIdx ids c := by
  constructor
  · intro h
    have hc : c ∈ ids := occursAt_mem h.1
    have h' := isLastOcc_lastIdx hc
    exact ⟨hc, Nat.le_antisymm (h'.2 _ h.1) (h.2 _ h'.1)⟩
  · rintro ⟨hc, rfl⟩
    exact isLastOcc_lastIdx hc

theorem firstIdx_le_lastIdx {ids : List Char} {c : Char} (h : c ∈ ids) :
    firstIdx ids c ≤ lastIdx ids c :=
  (isFirstOcc_firstIdx h).2 _ (isLastOcc_lastIdx h).1

theorem positions_length_eq_count (ids : List Char) (c : Char) :
    (positions ids c).length = ids.count c :=
  posFrom_length ids c 0

theorem firstIdx_eq_lastIdx_of_count_one {ids : List Char} {c : Char}
    (h : ids.count c = 1) : firstIdx ids c = lastIdx ids c := by
  have hlen : (positions ids c).length = 1 := by
    rw [positions_length_eq_count, h]
  obtain ⟨a, ha⟩ := List.length_eq_one.mp hlen
  unfold firstIdx lastIdx
  rw [ha]
  rfl

theorem lookup_chainToNum {us : List Char} {c : Char} (h : c ∈ us) :
    ∀ n : Nat, (chainToNum us n).lookup c = some (n + us.indexOf c) := by
  induction us with
  | nil => cases h
  | cons u us ih =>
    intro n
    by_cases hc : c = u
    · subst hc
      simp [chainToNum, List.lookup_cons, List.indexOf_cons_self]
    · have hcu : (c == u) = false := beq_false_of_ne hc
      have hm : c ∈ us := by
        rcases List.mem_cons.mp h with rfl | h'
        · exact absurd rfl hc
        · exact h'
      rw [chainToNum, List.lookup_cons, hcu, ih hm (n + 1),
        List.indexOf_cons_ne _ (fun e => hc e.symm)]
      have : n + 1 + us.indexOf c = n + (us.indexOf c).succ := by omega
      rw [this]

theorem map_fst_chainToNum (us : List Char) : ∀ n, (chainToNum us n).map Prod.fst = us := by
  induction us with
  | nil => intro n; rfl
  | cons u us ih => intro n; simp [chainToNum, ih]

theorem map_snd_chainToNum (us : List Char) :
    ∀ n, (chainToNum us n).map Prod.snd = List.range' n us.length := by
  induction us with
  | nil => intro n; rfl
  | cons u us ih => intro n; simp [chainToNum, ih, List.range']

theorem length_chainToNum (us : List Char) : ∀ n, (chainToNum us n).length = us.length := by
  induction us with
  | nil => intro n; rfl
  | cons u us ih => intro n; simp [chainToNum, ih]

theorem mapLookup_eq_map {m : List (Char × Nat)} {f : Char → Nat} :
    ∀ {l : List Char}, (∀ c ∈ l, m.lookup c = some (f c)) →
      mapLookup m l = some (l.map f) := by
  intro l
  induction l with
  | nil => intro _; rfl
  | cons c cs ih =>
    intro h
    rw [mapLookup, h c (List.mem_cons_self c cs),
      ih (fun d hd => h d (List.mem_cons_of_mem c hd))]
    rfl

theorem computeStartEnd_eq {ids : List Char} :
    ∀ {cs : List Char}, (∀ c ∈ cs, c ∈ ids) →
      computeStartEnd ids cs =
        some (cs.map (fun c => (c, firstIdx ids c)), cs.map (fun c => (c, lastIdx ids c))) := by
  intro cs
  induction cs with
  | nil => intro _; rfl
  | cons c cs ih =>
    intro h
    have hc : c ∈ ids := h c (List.mem_cons_self c cs)
    rw [computeStartEnd, positions_head? hc, positions_getLast? hc,
      ih (fun d hd => h d (List.mem_cons_of_mem c hd))]
    rfl

theorem process_spec (ids : List Char) :
    process_token_chains ids =
      some (chainToNum (np_unique ids) 0,
        (np_unique ids).map (fun c => (c, firstIdx ids c)),
        (np_unique ids).map (fun c => (c, lastIdx ids c)),
        [ids.map (fun c => (np_unique ids).indexOf c)]) := by
  have hlook : ∀ c ∈ ids,
      (chainToNum (np_unique ids) 0).lookup c = some ((np_unique ids).indexOf c) := by
    intro c hc
    rw [lookup_chainToNum (mem_np_unique.mpr hc) 0, Nat.zero_add]
  have hmem : ∀ c ∈ np_unique ids, c ∈ ids := fun c hc => mem_np_unique.mp hc
  rw [process_token_chains]
  rw [mapLookup_eq_map hlook, computeStartEnd_eq hmem]

/-! ## Lemmas about the figure composer -/

theorem lookup_map_self {f : Char → Nat} {c : Char} :
    ∀ {cs : List Char}, c ∈ cs → (cs.map (fun d => (d, f d))).lookup c = some (f c) := by
  intro cs
  induction cs with
  | nil => intro h; cases h
  | cons d ds ih =>
    intro h
    by_cases hc : c = d
    · subst hc
      simp [List.lookup_cons]
    · have hcd : (c == d) = false := beq_false_of_ne hc
      rw [List.map_cons, List.lookup_cons, hcd]
      rcases List.mem_cons.mp h with rfl | h'
      · exact absurd rfl hc
      · exact ih h'

theorem computeTexts_eq {es : List (Char × Nat)} {f g : Char → Nat} :
    ∀ {cs : List Char}, (∀ c ∈ cs, es.lookup c = some (g c)) →
      computeTexts es (cs.map (fun c => (c, f c))) =
        some (cs.map (fun c => ((((f c : Rat) + (g c : Rat)) / 2), (0 : Rat), c)),
          cs.map (fun c => ((0 : Rat), (((f c : Rat) + (g c : Rat)) / 2), c))) := by
  intro cs
  induction cs with
  | nil => intro _; rfl
  | cons c cs ih =>
    intro hes
    rw [List.map_cons, computeTexts, hes c (List.mem_cons_self c cs),
      ih (fun d hd => hes d (List.mem_cons_of_mem c hd))]
    rfl

theorem mem_boundaryLines {x : Rat} :
    ∀ {l : List (Char × Nat)},
      x ∈ boundaryLines l ↔ ∃ c s, (c, s) ∈ l ∧ s ≠ 0 ∧ x = (s : Rat) - 1 / 2 := by
  intro l
  induction l with
  | nil => simp [boundaryLines]
  | cons p rest ih =>
    obtain ⟨c, s⟩ := p
    by_cases hs : s ≠ 0
    · rw [boundaryLines, if_pos hs]
      constructor
      · intro hx
        rcases List.mem_cons.mp hx with rfl | hx'
        · exact ⟨c, s, List.mem_cons_self _ _, hs, rfl⟩
        · obtain ⟨c', s', hm, hs', hx''⟩ := ih.mp hx'
          exact ⟨c', s', List.mem_cons_of_mem _ hm, hs', hx''⟩
      · rintro ⟨c', s', hm, hs', rfl⟩
        rcases List.mem_cons.mp hm with heq | hm'
        · obtain ⟨rfl, rfl⟩ := Prod.mk.injEq .. ▸ And.intro (congrArg Prod.fst heq) (congrArg Prod.snd heq)
          exact List.mem_cons_self _ _
        · exact List.mem_cons_of_mem _ (ih.mpr ⟨c', s', hm', hs', rfl⟩)
    · rw [boundaryLines, if_neg hs]
      push_neg at hs
      subst hs
      rw [ih]
      constructor
      · rintro ⟨c', s', hm, hs', rfl⟩
        exact ⟨c', s', List.mem_cons_of_mem _ hm, hs', rfl⟩
      · rintro ⟨c', s', hm, hs', rfl⟩
        rcases List.mem_cons.mp hm with heq | hm'
        · have : s' = 0 := congrArg Prod.snd heq
          exact absurd this hs'
        · exact ⟨c', s', hm', hs', rfl⟩

/-- The explicit figure rendered for one model. -/
theorem render_spec (data : FullData) :
    render_model data =
      some
        { heatmap := data.pae
          vmin := 0
          vmax := 30
          top_strip := [data.token_chain_ids.map
            (fun c => (np_unique data.token_chain_ids).indexOf c)]
          left_strip := ([data.token_chain_ids.map
            (fun c => (np_unique data.token_chain_ids).indexOf c)]).transpose
          colorbar_label := "PAE (Å)"
          center_hlines := boundaryLines ((np_unique data.token_chain_ids).map
            (fun c => (c, firstIdx data.token_chain_ids c)))
          center_vlines := boundaryLines ((np_unique data.token_chain_ids).map
            (fun c => (c, firstIdx data.token_chain_ids c)))
          top_vlines := boundaryLines ((np_unique data.token_chain_ids).map
            (fun c => (c, firstIdx data.token_chain_ids c)))
          left_hlines := boundaryLines ((np_unique data.token_chain_ids).map
            (fun c => (c, firstIdx data.token_chain_ids c)))
          top_texts := (np_unique data.token_chain_ids).map
            (fun c => ((((firstIdx data.token_chain_ids c : Rat) +
              (lastIdx data.token_chain_ids c : Rat)) / 2), (0 : Rat), c))
          left_texts := (np_unique data.token_chain_ids).map
            (fun c => ((0 : Rat), (((firstIdx data.token_chain_ids c : Rat) +
              (lastIdx data.token_chain_ids c : Rat)) / 2), c)) } := by
  have hes : ∀ c ∈ np_unique data.token_chain_ids,
      ((np_unique data.token_chain_ids).map
        (fun c => (c, lastIdx data.token_chain_ids c))).lookup c =
          some (lastIdx data.token_chain_ids c) := by
    intro c hc
    exact lookup_map_self hc
  have htexts := computeTexts_eq (f := fun c => firstIdx data.token_chain_ids c)
    (g := fun c => lastIdx data.token_chain_ids c) hes
  simp only [render_model, process_spec, htexts]

theorem indexOf_eq_countP_of_sorted :
    ∀ {us : List Char}, us.Sorted (· ≤ ·) → us.Nodup → ∀ {c : Char}, c ∈ us →
      us.indexOf c = us.countP (fun d => decide (d < c)) := by
  intro us
  induction us with
  | nil => intro _ _ c h; cases h
  | cons a us ih =>
    intro hs hn c hc
    have hs' : us.Sorted (· ≤ ·) := hs.of_cons
    have hale : ∀ b ∈ us, a ≤ b := List.rel_of_sorted_cons hs
    have hn' : us.Nodup := hn.of_cons
    by_cases hca : c = a
    · subst hca
      rw [List.indexOf_cons_self, List.countP_cons]
      have h2 : us.countP (fun d => decide (d < c)) = 0 := by
        rw [List.countP_eq_zero]
        intro d hd
        simp only [decide_eq_true_eq]
        exact not_lt.mpr (hale d hd)
      simp [h2]
    · have hcu : c ∈ us := by
        rcases List.mem_cons.mp hc with rfl | h'
        · exact absurd rfl hca
        · exact h'
      rw [List.indexOf_cons_ne _ (fun e => hca e.symm), ih hs' hn' hcu, List.countP_cons]
      have hac : a < c := lt_of_le_of_ne (hale c hcu) (fun e => hca e.symm)
      simp [hac]

/-- Lexicographic rank of label `c` among the distinct labels of the input:
the number of distinct input labels strictly smaller than `c`. -/
def labelRank (token_chain_ids : List Char) (c : Char) : Nat :=
  token_chain_ids.dedup.countP (fun d => decide (d < c))

theorem indexOf_np_unique_eq_labelRank {ids : List Char} {c : Char} (h : c ∈ ids) :
    (np_unique ids).indexOf c = labelRank ids c := by
  rw [indexOf_eq_countP_of_sorted (np_unique_sorted ids) (np_unique_nodup ids)
    (mem_np_unique.mpr h)]
  exact (np_unique_perm ids).countP_eq _

theorem lookup_map_eq_some {f : Char → Nat} {c : Char} {i : Nat} :
    ∀ {cs : List Char}, (cs.map (fun d => (d, f d))).lookup c = some i →
      c ∈ cs ∧ i = f c := by
  intro cs
  induction cs with
  | nil => intro h; cases h
  | cons d ds ih =>
    intro h
    rw [List.map_cons, List.lookup_cons] at h
    cases hcd : c == d with
    | true =>
      rw [hcd] at h
      have hcd' : c = d := beq_iff_eq.mp hcd
      subst hcd'
      obtain rfl : f c = i := Option.some.inj h
      exact ⟨List.mem_cons_self _ _, rfl⟩
    | false =>
      rw [hcd] at h
      obtain ⟨hm, hi⟩ := ih h
      exact ⟨List.mem_cons_of_mem _ hm, hi⟩

/-! ## Lemmas about the driver -/

theorem loadSeq_eq_none {α : Type} {get : Fin 5 → Option α} {i : Fin 5}
    (hi : get i = none) : ∀ {l : List (Fin 5)}, i ∈ l → loadSeq get l = none := by
  intro l
  induction l with
  | nil => intro h; cases h
  | cons j l ih =>
    intro h
    rw [loadSeq]
    cases hj : get j with
    | none => rfl
    | some x =>
      have hil : i ∈ l := by
        rcases List.mem_cons.mp h with rfl | h'
        · rw [hi] at hj; cases hj
        · exact h'
      rw [ih hil]

/-- The data of a full-data file that the rendered figure can depend on:
missing files match only missing files, and present files must agree on
`token_chain_ids` and `pae` and on the length of `token_res_ids`. -/
def figureRelevant : Option FullData → Option FullData → Bool
  | none, none => true
  | some a, some b =>
    decide (a.token_chain_ids = b.token_chain_ids) && decide (a.pae = b.pae) &&
      decide (a.token_res_ids.length = b.token_res_ids.length)
  | _, _ => false

theorem render_model_congr {a b : FullData} (h1 : a.token_chain_ids = b.token_chain_ids)
    (h2 : a.pae = b.pae) : render_model a = render_model b := by
  rw [render_spec, render_spec, h1, h2]

theorem renderLoop_congr :
    ∀ {xs ys : List FullData},
      List.Forall₂ (fun a b => render_model a = render_model b) xs ys →
      ∀ n, renderLoop xs n = renderLoop ys n := by
  intro xs ys h
  induction h with
  | nil => intro n; rfl
  | cons hab _ ih =>
    intro n
    rw [renderLoop, renderLoop, hab, ih (n + 1)]

theorem loadSeq_rel {g1 g2 : Fin 5 → Option FullData}
    (h : ∀ i, figureRelevant (g1 i) (g2 i) = true) :
    ∀ l : List (Fin 5),
      (loadSeq g1 l = none ∧ loadSeq g2 l = none) ∨
      (∃ xs ys, loadSeq g1 l = some xs ∧ loadSeq g2 l = some ys ∧
        List.Forall₂ (fun a b => render_model a = render_model b) xs ys) := by
  intro l
  induction l with
  | nil => exact Or.inr ⟨[], [], rfl, rfl, List.Forall₂.nil⟩
  | cons i l ih =>
    have hi := h i
    cases h1 : g1 i with
    | none =>
      cases h2 : g2 i with
      | none => exact Or.inl ⟨by rw [loadSeq, h1], by rw [loadSeq, h2]⟩
      | some b => rw [h1, h2] at hi; exact absurd hi (by simp [figureRelevant])
    | some a =>
      cases h2 : g2 i with
      | none => rw [h1, h2] at hi; exact absurd hi (by simp [figureRelevant])
      | some b =>
        rw [h1, h2] at hi
        have hab : render_model a = render_model b := by
          simp only [figureRelevant, Bool.and_eq_true, decide_eq_true_eq] at hi
          exact render_model_congr hi.1.1 hi.1.2
        rcases ih with ⟨hn1, hn2⟩ | ⟨xs, ys, hs1, hs2, hrel⟩
        · exact Or.inl ⟨by rw [loadSeq, h1, hn1], by rw [loadSeq, h2, hn2]⟩
        · exact Or.inr ⟨a :: xs, b :: ys, by rw [loadSeq, h1, hs1],
            by rw [loadSeq, h2, hs2], List.Forall₂.cons hab hrel⟩

theorem loadSeq_isSome_congr {α β : Type} {g1 : Fin 5 → Option α} {g2 : Fin 5 → Option β}
    (h : ∀ i, (g1 i).isSome = (g2 i).isSome) :
    ∀ l : List (Fin 5), (loadSeq g1 l).isSome = (loadSeq g2 l).isSome := by
  intro l
  induction l with
  | nil => rfl
  | cons i l ih =>
    have hi := h i
    cases h1 : g1 i with
    | none =>
      cases h2 : g2 i with
      | none => rw [loadSeq, loadSeq, h1, h2]; rfl
      | some b => rw [h1, h2] at hi; cases hi
    | some a =>
      cases h2 : g2 i with
      | none => rw [h1, h2] at hi; cases hi
      | some b =>
        rw [loadSeq, loadSeq, h1, h2]
        cases hl1 : loadSeq g1 l with
        | none =>
          have : (loadSeq g2 l).isSome = false := by rw [← ih, hl1]; rfl
          cases hl2 : loadSeq g2 l with
          | none => rfl
          | some ys => rw [hl2] at this; cases this
        | some xs =>
          have : (loadSeq g2 l).isSome = true := by rw [← ih, hl1]; rfl
          cases hl2 : loadSeq g2 l with
          | none => rw [hl2] at this; cases this
          | some ys => rfl

/-! ## Claim theorems -/

/-- C2: for every label sequence, `process_token_chains` assigns each distinct
label a 0-based integer index equal to its rank in lexicographically sorted
order of the unique labels (the number of distinct labels strictly smaller
than it), and returns an integer-coded array of shape `(1, N)` whose entry at
position `i` equals the index assigned to the label at position `i` of the
input. -/
theorem C2_token_coding (ids : List Char) :
    ∃ chain_to_num s e row,
      process_token_chains ids = some (chain_to_num, s, e, [row]) ∧
      row.length = ids.length ∧
      (∃ u : List Char, u.Sorted (· < ·) ∧ (∀ c, c ∈ u ↔ c ∈ ids) ∧
        ∀ c ∈ ids, chain_to_num.lookup c = some (u.indexOf c)) ∧
      (∀ c ∈ ids, chain_to_num.lookup c = some (labelRank ids c)) ∧
      (∀ i : Nat, row.get? i = (ids.get? i).map (labelRank ids)) := by
  refine ⟨_, _, _, _, process_spec ids, List.length_map _ _, ?_, ?_, ?_⟩
  · refine ⟨np_unique ids, (np_unique_sorted ids).lt_of_le (np_unique_nodup ids),
      fun c => mem_np_unique, ?_⟩
    intro c hc
    rw [lookup_chainToNum (mem_np_unique.mpr hc) 0, Nat.zero_add]
  · intro c hc
    rw [lookup_chainToNum (mem_np_unique.mpr hc) 0, Nat.zero_add,
      indexOf_np_unique_eq_labelRank hc]
  · intro i
    rw [List.get?_map]
    cases hgi : ids.get? i with
    | none => rfl
    | some c =>
      have hc : c ∈ ids := List.get?_mem hgi
      simp only [Option.map_some']
      rw [indexOf_np_unique_eq_labelRank hc]

/-- C3: for every label sequence the three mappings have as many keys as the
input has distinct labels, a looked-up start index is the minimum occurrence
position of its label and a looked-up end index the maximum (so start ≤ end,
with equality for a label occurring exactly once), and on the interleaved
input "ABABAB" the recorded positions are first=0/last=4 for 'A' and
first=1/last=5 for 'B'. -/
theorem C3_first_last :
    (∀ ids : List Char,
      ∃ chain_to_num s e t,
        process_token_chains ids = some (chain_to_num, s, e, t) ∧
        chain_to_num.length = ids.dedup.length ∧
        s.length = ids.dedup.length ∧
        e.length = ids.dedup.length ∧
        (∀ c i, s.lookup c = some i → IsFirstOcc ids c i) ∧
        (∀ c i, e.lookup c = some i → IsLastOcc ids c i) ∧
        (∀ c ∈ ids, ∃ i j, s.lookup c = some i ∧ e.lookup c = some j ∧ i ≤ j ∧
          (ids.count c = 1 → i = j))) ∧
    (∃ nAB sAB eAB tAB,
      process_token_chains ['A', 'B', 'A', 'B', 'A', 'B'] = some (nAB, sAB, eAB, tAB) ∧
      sAB.lookup 'A' = some 0 ∧ sAB.lookup 'B' = some 1 ∧
      eAB.lookup 'A' = some 4 ∧ eAB.lookup 'B' = some 5) := by
  constructor
  · intro ids
    refine ⟨_, _, _, _, process_spec ids, length_chainToNum _ 0 |>.trans (np_unique_length ids),
      (List.length_map _ _).trans (np_unique_length ids),
      (List.length_map _ _).trans (np_unique_length ids), ?_, ?_, ?_⟩
    · intro c i h
      obtain ⟨hm, rfl⟩ := lookup_map_eq_some h
      exact isFirstOcc_firstIdx (mem_np_unique.mp hm)
    · intro c i h
      obtain ⟨hm, rfl⟩ := lookup_map_eq_some h
      exact isLastOcc_lastIdx (mem_np_unique.mp hm)
    · intro c hc
      refine ⟨firstIdx ids c, lastIdx ids c,
        lookup_map_self (mem_np_unique.mpr hc), lookup_map_self (mem_np_unique.mpr hc),
        firstIdx_le_lastIdx hc, fun h1 => firstIdx_eq_lastIdx_of_count_one h1⟩
  · exact ⟨_, _, _, _, rfl, rfl, rfl, rfl, rfl⟩

/-- C6: on the empty label sequence `process_token_chains` returns three empty
mappings and an integer-coded array of shape `(1, 0)` (one row, zero columns)
without raising an error. -/
theorem C6_empty_input : process_token_chains [] = some ([], [], [], [[]]) := rfl

/-- C9: `process_token_chains` is total on its own indexing and lookups: it
always returns a result, every element of the input is a key of
`chain_to_num`, and for every unique label the occurrence-index array is
non-empty (so `indices[0]` and `indices[-1]` are in bounds). -/
theorem C9_totality (ids : List Char) :
    ∃ chain_to_num s e t,
      process_token_chains ids = some (chain_to_num, s, e, t) ∧
      (∀ c ∈ ids, (chain_to_num.lookup c).isSome = true) ∧
      (∀ c ∈ np_unique ids, positions ids c ≠ []) := by
  refine ⟨_, _, _, _, process_spec ids, ?_, ?_⟩
  · intro c hc
    rw [lookup_chainToNum (mem_np_unique.mpr hc) 0]
    rfl
  · intro c hc
    exact positions_ne_nil (mem_np_unique.mp hc)

/-- C10: the three returned dictionaries have exactly the same key list — the
distinct labels of the input, without duplicates — and the values of
`chain_to_num` are exactly `0, ..., k-1` in order, where `k` is the number of
distinct labels (a bijection between keys and `{0, ..., k-1}`). -/
theorem C10_key_sets (ids : List Char) :
    ∃ chain_to_num s e t,
      process_token_chains ids = some (chain_to_num, s, e, t) ∧
      chain_to_num.map Prod.fst = np_unique ids ∧
      s.map Prod.fst = np_unique ids ∧
      e.map Prod.fst = np_unique ids ∧
      (∀ c, c ∈ np_unique ids ↔ c ∈ ids) ∧
      (np_unique ids).Nodup ∧
      (np_unique ids).length = ids.dedup.length ∧
      chain_to_num.map Prod.snd = List.range (np_unique ids).length := by
  refine ⟨_, _, _, _, process_spec ids, map_fst_chainToNum _ 0, ?_, ?_,
    fun c => mem_np_unique, np_unique_nodup ids, np_unique_length ids, ?_⟩
  · simp [Function.comp_def]
  · simp [Function.comp_def]
  · rw [map_snd_chainToNum, List.range_eq_range']

theorem mem_boundaryLines_starts {ids : List Char} {x : Rat} :
    x ∈ boundaryLines ((np_unique ids).map (fun c => (c, firstIdx ids c))) ↔
      ∃ c n, IsFirstOcc ids c n ∧ n ≠ 0 ∧ x = (n : Rat) - 1 / 2 := by
  rw [mem_boundaryLines]
  constructor
  · rintro ⟨c, s, hm, hs, rfl⟩
    obtain ⟨a, ha, heq⟩ := List.mem_map.mp hm
    have h1 : a = c := congrArg Prod.fst heq
    have h2 : firstIdx ids a = s := congrArg Prod.snd heq
    subst h1
    subst h2
    exact ⟨a, firstIdx ids a, isFirstOcc_iff.mpr ⟨mem_np_unique.mp ha, rfl⟩, hs, rfl⟩
  · rintro ⟨c, n, hf, hn, rfl⟩
    obtain ⟨hc, rfl⟩ := isFirstOcc_iff.mp hf
    exact ⟨c, firstIdx ids c, List.mem_map.mpr ⟨c, mem_np_unique.mpr hc, rfl⟩, hn, rfl⟩

theorem mem_texts_top {ids : List Char} {t : Rat × Rat × Char} :
    t ∈ (np_unique ids).map
        (fun c => ((((firstIdx ids c : Rat) + (lastIdx ids c : Rat)) / 2), (0 : Rat), c)) ↔
      ∃ c n m, IsFirstOcc ids c n ∧ IsLastOcc ids c m ∧
        t = (((n : Rat) + (m : Rat)) / 2, (0 : Rat), c) := by
  rw [List.mem_map]
  constructor
  · rintro ⟨a, ha, rfl⟩
    have hc : a ∈ ids := mem_np_unique.mp ha
    exact ⟨a, firstIdx ids a, lastIdx ids a, isFirstOcc_firstIdx hc, isLastOcc_lastIdx hc, rfl⟩
  · rintro ⟨c, n, m, hf, hl, rfl⟩
    obtain ⟨hc, rfl⟩ := isFirstOcc_iff.mp hf
    obtain ⟨-, rfl⟩ := isLastOcc_iff.mp hl
    exact ⟨c, mem_np_unique.mpr hc, rfl⟩

theorem mem_texts_left {ids : List Char} {t : Rat × Rat × Char} :
    t ∈ (np_unique ids).map
        (fun c => ((0 : Rat), (((firstIdx ids c : Rat) + (lastIdx ids c : Rat)) / 2), c)) ↔
      ∃ c n m, IsFirstOcc ids c n ∧ IsLastOcc ids c m ∧
        t = ((0 : Rat), ((n : Rat) + (m : Rat)) / 2, c) := by
  rw [List.mem_map]
  constructor
  · rintro ⟨a, ha, rfl⟩
    have hc : a ∈ ids := mem_np_unique.mp ha
    exact ⟨a, firstIdx ids a, lastIdx ids a, isFirstOcc_firstIdx hc, isLastOcc_lastIdx hc, rfl⟩
  · rintro ⟨c, n, m, hf, hl, rfl⟩
    obtain ⟨hc, rfl⟩ := isFirstOcc_iff.mp hf
    obtain ⟨-, rfl⟩ := isLastOcc_iff.mp hl
    exact ⟨c, mem_np_unique.mpr hc, rfl⟩

/-- C4: every rendered model draws a dashed boundary line in the center panel
at `start − 0.5` on both axes, and a solid white line at the same offset in
the top and left strips, for exactly the chains whose first occurrence index
is not 0; a chain starting at index 0 gets no leading separator; on the
contiguous-run input "AAABBBCCC" the start positions used are the true
run-start indices 0, 3, 6, so lines appear at 2.5 and 5.5 only. -/
theorem C4_boundary_lines :
    (∀ data : FullData, ∃ fig,
      render_model data = some fig ∧
      fig.center_vlines = fig.center_hlines ∧
      fig.top_vlines = fig.center_hlines ∧
      fig.left_hlines = fig.center_hlines ∧
      (∀ x : Rat, x ∈ fig.center_hlines ↔
        ∃ c n, IsFirstOcc data.token_chain_ids c n ∧ n ≠ 0 ∧ x = (n : Rat) - 1 / 2)) ∧
    (∃ fig,
      render_model
          { token_chain_ids := ['A', 'A', 'A', 'B', 'B', 'B', 'C', 'C', 'C'],
            token_res_ids := [1, 2, 3, 1, 2, 3, 1, 2, 3],
            pae := [] } = some fig ∧
      fig.center_hlines = [(5 : Rat) / 2, (11 : Rat) / 2] ∧
      firstIdx ['A', 'A', 'A', 'B', 'B', 'B', 'C', 'C', 'C'] 'A' = 0 ∧
      firstIdx ['A', 'A', 'A', 'B', 'B', 'B', 'C', 'C', 'C'] 'B' = 3 ∧
      firstIdx ['A', 'A', 'A', 'B', 'B', 'B', 'C', 'C', 'C'] 'C' = 6) := by
  constructor
  · intro data
    exact ⟨_, render_spec data, rfl, rfl, rfl, fun x => mem_boundaryLines_starts⟩
  · refine ⟨_, render_spec _, ?_, by decide, by decide, by decide⟩
    show boundaryLines ((np_unique ['A', 'A', 'A', 'B', 'B', 'B', 'C', 'C', 'C']).map
      (fun c => (c, firstIdx ['A', 'A', 'A', 'B', 'B', 'B', 'C', 'C', 'C'] c))) =
        [(5 : Rat) / 2, (11 : Rat) / 2]
    have hlist : (np_unique ['A', 'A', 'A', 'B', 'B', 'B', 'C', 'C', 'C']).map
        (fun c => (c, firstIdx ['A', 'A', 'A', 'B', 'B', 'B', 'C', 'C', 'C'] c)) =
          [('A', 0), ('B', 3), ('C', 6)] := by decide
    rw [hlist]
    norm_num [boundaryLines]

/-- C5: every rendered model places each chain label's character in both the
top and the left strip at the midpoint `(first + last) / 2` of that label's
recorded first and last occurrence positions, and nothing else is placed
there. -/
theorem C5_label_midpoints (data : FullData) :
    ∃ fig,
      render_model data = some fig ∧
      (∀ t, t ∈ fig.top_texts ↔
        ∃ c n m, IsFirstOcc data.token_chain_ids c n ∧ IsLastOcc data.token_chain_ids c m ∧
          t = (((n : Rat) + (m : Rat)) / 2, (0 : Rat), c)) ∧
      (∀ t, t ∈ fig.left_texts ↔
        ∃ c n m, IsFirstOcc data.token_chain_ids c n ∧ IsLastOcc data.token_chain_ids c m ∧
          t = ((0 : Rat), ((n : Rat) + (m : Rat)) / 2, c)) ∧
      (∀ c ∈ data.token_chain_ids,
        (((firstIdx data.token_chain_ids c : Rat) +
            (lastIdx data.token_chain_ids c : Rat)) / 2, (0 : Rat), c) ∈ fig.top_texts ∧
        ((0 : Rat), ((firstIdx data.token_chain_ids c : Rat) +
            (lastIdx data.token_chain_ids c : Rat)) / 2, c) ∈ fig.left_texts) := by
  refine ⟨_, render_spec data, fun t => mem_texts_top, fun t => mem_texts_left, ?_⟩
  intro c hc
  exact ⟨List.mem_map.mpr ⟨c, mem_np_unique.mpr hc, rfl⟩,
    List.mem_map.mpr ⟨c, mem_np_unique.mpr hc, rfl⟩⟩

/-- Sample full-data content used in the concrete runs below. -/
def sampleFull : FullData :=
  { token_chain_ids := ['A', 'A', 'B']
    token_res_ids := [1, 2, 1]
    pae := [[0, 1, 2], [1, 0, 3], [2, 3, 0]] }

/-- Sample summary-confidences content used in the concrete runs below. -/
def sampleConf : ConfData := { fields := [("ptm", 9 / 10)] }

/-- A prediction directory whose JSON files are all present and parseable
except the full-data file of model index 1. -/
def fsMissingFull1 : FileSystem :=
  { full := fun i => if i.val = 1 then none else some sampleFull
    conf := fun _ => some sampleConf }

/-- C1 is refuted: in a directory where model 0's files are present and only
model 1 is missing its full-data file, the run aborts during the upfront load
of the ten JSON files, so `figure_pae_0.png` is never written — the written
list is empty, not headed by model 0's figure. -/
theorem C1_counterexample :
    (fsMissingFull1.full 0).isSome = true ∧
    (fsMissingFull1.conf 0).isSome = true ∧
    fsMissingFull1.full 1 = none ∧
    (∀ i : Fin 5, i ≠ 1 → (fsMissingFull1.full i).isSome = true) ∧
    (∀ i : Fin 5, (fsMissingFull1.conf i).isSome = true) ∧
    main_model fsMissingFull1 = RunOutcome.failure [] ∧
    ¬ ∃ fig w, main_model fsMissingFull1 = RunOutcome.failure ((0, fig) :: w) := by
  have hmain : main_model fsMissingFull1 = RunOutcome.failure [] := by decide
  refine ⟨rfl, rfl, rfl, by decide, fun i => rfl, hmain, ?_⟩
  rintro ⟨fig, w, h⟩
  rw [hmain] at h
  simp at h

/-- C1 (amended): when model index 1 is missing one of its two JSON files,
the program fails during the eager load of all ten files, before composing
any figure: no image at all is written (in particular not
`figure_pae_0.png`) and the process exits non-zero. -/
theorem C1_amended_eager_load_failure (fs : FileSystem)
    (h : fs.full 1 = none ∨ fs.conf 1 = none) :
    main_model fs = RunOutcome.failure [] := by
  rcases h with h | h
  · rw [main_model, loadSeq_eq_none h (List.mem_finRange 1)]
  · rw [main_model]
    cases hfull : loadSeq fs.full (List.finRange 5) with
    | none => rfl
    | some fulls => rw [loadSeq_eq_none h (List.mem_finRange 1)]

theorem C1_amended_eager_load_failure_witness :
    (fsMissingFull1.full 1 = none ∨ fsMissingFull1.conf 1 = none) ∧
      main_model fsMissingFull1 = RunOutcome.failure [] :=
  ⟨Or.inl rfl, C1_amended_eager_load_failure fsMissingFull1 (Or.inl rfl)⟩

/-- C7: invoked with fewer than two entries in `sys.argv` (no directory
argument), the script prints the usage message and exits with status 1;
`main` is never entered and no file is touched. -/
theorem C7_usage_without_argument (argv : List String) (dirs : String → FileSystem)
    (h : argv.length < 2) :
    script_main argv dirs =
      CliOutcome.usage "Usage: python vis_pae.py <alphafold_prediction_directory>" 1 := by
  rw [script_main, if_pos h]

theorem C7_usage_without_argument_witness :
    (["vis_pae.py"] : List String).length < 2 ∧
      script_main ["vis_pae.py"] (fun _ => { full := fun _ => none, conf := fun _ => none }) =
        CliOutcome.usage "Usage: python vis_pae.py <alphafold_prediction_directory>" 1 :=
  ⟨by decide, C7_usage_without_argument ["vis_pae.py"] _ (by decide)⟩

/-- C8: two runs whose directories differ only in the contents of the
(parseable) summary-confidences files and/or in the values of
`token_res_ids` (of equal length) produce identical rendered output: neither
the confidence data nor the computed `xticks_loc`/`xticks_present` influence
the figures. -/
theorem C8_noninterference (fs1 fs2 : FileSystem)
    (hfull : ∀ i, figureRelevant (fs1.full i) (fs2.full i) = true)
    (hconf : ∀ i, (fs1.conf i).isSome = (fs2.conf i).isSome) :
    main_model fs1 = main_model fs2 := by
  rw [main_model, main_model]
  rcases loadSeq_rel hfull (List.finRange 5) with ⟨h1, h2⟩ | ⟨xs, ys, h1, h2, hrel⟩
  · rw [h1, h2]
  · rw [h1, h2]
    have hc := loadSeq_isSome_congr hconf (List.finRange 5)
    cases hc1 : loadSeq fs1.conf (List.finRange 5) with
    | none =>
      cases hc2 : loadSeq fs2.conf (List.finRange 5) with
      | none => rfl
      | some cs => rw [hc1, hc2] at hc; cases hc
    | some cs =>
      cases hc2 : loadSeq fs2.conf (List.finRange 5) with
      | none => rw [hc1, hc2] at hc; cases hc
      | some ds => exact renderLoop_congr hrel 0

/-- A directory agreeing with `fsB` on chain ids and pae matrices but with
different residue ids and confidence contents. -/
def fsA : FileSystem :=
  { full := fun _ => some sampleFull
    conf := fun _ => some sampleConf }

/-- A directory agreeing with `fsA` on chain ids and pae matrices but with
different residue ids and confidence contents. -/
def fsB : FileSystem :=
  { full := fun _ => some
      { token_chain_ids := ['A', 'A', 'B']
        token_res_ids := [200, 400, 600]
        pae := [[0, 1, 2], [1, 0, 3], [2, 3, 0]] }
    conf := fun _ => some { fields := [("iptm", 1 / 4), ("ranking", 3 / 5)] } }

theorem C8_noninterference_witness :
    (∀ i, figureRelevant (fsA.full i) (fsB.full i) = true) ∧
    (∀ i, (fsA.conf i).isSome = (fsB.conf i).isSome) ∧
    main_model fsA = main_model fsB :=
  ⟨by decide, fun i => rfl, C8_noninterference fsA fsB (by decide) (fun i => rfl)⟩

end VisPae
